import Mathlib

/-!
Shallow embedding of the AnkiGen card-generation engine (`app.py`).

The pure logic of the program is translated function by function:
Python strings become `String`, Python lists become `List`, the dict of
blocks becomes an insertion-ordered association list, and the dynamically
typed `tags` field of a card becomes the sum type `TagsVal` (the code
stores a list of strings on most cards, but `create_fill_cards` reads the
module-level string variable `tags` instead).  Python string primitives
(`strip`, `split`, `replace`, `in`, `join`) are modelled over `List Char`
with Python's semantics on the ASCII inputs the app handles.
-/

namespace Ankigen

/-- ASCII whitespace, as recognised by Python's `str.strip` / `str.split()`. -/
def pyIsSpace (c : Char) : Bool :=
  c == ' ' || c == '\t' || c == '\n' || c == '\r' || c == '\x0b' || c == '\x0c'

/-- `s.strip()`: drop leading and trailing whitespace. -/
def pyStrip (s : String) : String :=
  ⟨((s.data.dropWhile pyIsSpace).reverse.dropWhile pyIsSpace).reverse⟩

/-- Is `p` a prefix of `l`? -/
def isPre : List Char → List Char → Bool
  | [], _ => true
  | _ :: _, [] => false
  | a :: ps, b :: ls => a == b && isPre ps ls

/-- Does `needle` occur as a contiguous substring of `hay` (Python `in`)? -/
def listContains (needle : List Char) : List Char → Bool
  | [] => needle.isEmpty
  | c :: t => isPre needle (c :: t) || listContains needle t

/-- Python `needle in hay` on strings. -/
def strContains (hay needle : String) : Bool := listContains needle.data hay.data

/-- Split at the first occurrence of `sep` (`none` when `sep` does not occur). -/
def splitOnceAux (sep : List Char) : List Char → Option (List Char × List Char)
  | [] => none
  | c :: t =>
    if isPre sep (c :: t) then some ([], (c :: t).drop sep.length)
    else
      match splitOnceAux sep t with
      | some (a, b) => some (c :: a, b)
      | none => none

/-- `s.split(sep)` on characters, fuel-indexed so that it is structural;
fuel `l.length` always suffices because each step consumes `sep` (nonempty). -/
def splitAllFuel (sep : List Char) : Nat → List Char → List (List Char)
  | 0, l => [l]
  | fuel + 1, l =>
    match splitOnceAux sep l with
    | none => [l]
    | some (a, b) => a :: splitAllFuel sep fuel b

/-- `s.split(sep)` for a nonempty separator. -/
def pySplitAll (s sep : String) : List String :=
  (splitAllFuel sep.data s.data.length s.data).map (fun l => ⟨l⟩)

/-- `s.split(sep, 1)`: a list of one or two strings. -/
def pySplit1 (s sep : String) : List String :=
  match splitOnceAux sep.data s.data with
  | none => [s]
  | some (a, b) => [⟨a⟩, ⟨b⟩]

/-- `s.replace(old, new, 1)`: replace the first occurrence of `old`. -/
def replaceFirstL (old new : List Char) : List Char → List Char
  | [] => if old.isEmpty then new else []
  | c :: t =>
    if isPre old (c :: t) then new ++ (c :: t).drop old.length
    else c :: replaceFirstL old new t

def pyReplaceFirst (s old new : String) : String := ⟨replaceFirstL old.data new.data s.data⟩

/-- Accumulator pass behind `str.split()` (split on whitespace runs). -/
def wordsAux : List Char → List Char → List (List Char)
  | cur, [] => if cur.isEmpty then [] else [cur.reverse]
  | cur, c :: t =>
    if pyIsSpace c then
      if cur.isEmpty then wordsAux [] t else cur.reverse :: wordsAux [] t
    else wordsAux (c :: cur) t

/-- `sep.join(xs)` on characters. -/
def joinSep (sep : List Char) : List (List Char) → List Char
  | [] => []
  | [x] => x
  | x :: y :: t => x ++ sep ++ joinSep sep (y :: t)

/-- `" ".join(term.split())`: whitespace normalization applied to cloze terms. -/
def pyWsNorm (s : String) : String := ⟨joinSep [' '] (wordsAux [] s.data)⟩

/-- `sep.join(xs)` on strings. -/
def strJoin (sep : String) (xs : List String) : String :=
  ⟨joinSep sep.data (xs.map String.data)⟩

/-- `t.replace(" ", "_")`: single-character pattern, hence a per-character map. -/
def normalizeTag (t : String) : String :=
  ⟨t.data.map (fun c => if c == ' ' then '_' else c)⟩

/-! ### SHA-1 (for `gen_id_from_text`, which uses `hashlib.sha1`) -/

/-- UTF-8 encoding of one character, as byte values. -/
def utf8Char (c : Char) : List Nat :=
  let n := c.toNat
  if n < 128 then [n]
  else if n < 2048 then [192 + n / 64, 128 + n % 64]
  else if n < 65536 then [224 + n / 4096, 128 + n / 64 % 64, 128 + n % 64]
  else [240 + n / 262144, 128 + n / 4096 % 64, 128 + n / 64 % 64, 128 + n % 64]

/-- `name.encode("utf-8")`. -/
def strBytes (s : String) : List Nat := (s.data.map utf8Char).flatten

/-- Left rotation of a 32-bit word (input assumed `< 2^32`). -/
def rotl (b n : Nat) : Nat := (n * 2 ^ b + n / 2 ^ (32 - b)) % 4294967296

/-- SHA-1 round function. -/
def sha1F (t b c d : Nat) : Nat :=
  if t < 20 then Nat.lor (Nat.land b c) (Nat.land (4294967295 - b) d)
  else if t < 40 then Nat.xor (Nat.xor b c) d
  else if t < 60 then Nat.lor (Nat.lor (Nat.land b c) (Nat.land b d)) (Nat.land c d)
  else Nat.xor (Nat.xor b c) d

/-- SHA-1 round constants. -/
def sha1K (t : Nat) : Nat :=
  if t < 20 then 0x5A827999 else if t < 40 then 0x6ED9EBA1
  else if t < 60 then 0x8F1BBCDC else 0xCA62C1D6

/-- Extend the 16 message words to 80, most recent first. -/
def sha1ExtendRev : List Nat → Nat → List Nat
  | ws, 0 => ws
  | ws, n + 1 =>
    sha1ExtendRev
      (rotl 1 (Nat.xor (Nat.xor (ws.getD 2 0) (ws.getD 7 0))
        (Nat.xor (ws.getD 13 0) (ws.getD 15 0))) :: ws) n

/-- The 80 compression rounds, fed `(round index, word)` pairs. -/
def sha1Rounds : List (Nat × Nat) → Nat × Nat × Nat × Nat × Nat → Nat × Nat × Nat × Nat × Nat
  | [], st => st
  | (t, wt) :: rest, (a, b, c, d, e) =>
    sha1Rounds rest
      ((rotl 5 a + sha1F t b c d + e + sha1K t + wt) % 4294967296, a, rotl 30 b, c, d)

/-- Process one 512-bit block (given as 16 words). -/
def sha1Block (h : Nat × Nat × Nat × Nat × Nat) (ws : List Nat) : Nat × Nat × Nat × Nat × Nat :=
  match sha1Rounds ((List.range 80).zip ((sha1ExtendRev ws.reverse 64).reverse)) h, h with
  | (a, b, c, d, e), (h0, h1, h2, h3, h4) =>
    ((h0 + a) % 4294967296, (h1 + b) % 4294967296, (h2 + c) % 4294967296,
     (h3 + d) % 4294967296, (h4 + e) % 4294967296)

/-- Big-endian 8-byte encoding of a (already reduced) 64-bit value. -/
def be8 (n : Nat) : List Nat :=
  [n / 72057594037927936 % 256, n / 281474976710656 % 256, n / 1099511627776 % 256,
   n / 4294967296 % 256, n / 16777216 % 256, n / 65536 % 256, n / 256 % 256, n % 256]

/-- SHA-1 padding: `0x80`, zeros to 56 mod 64, then the bit length. -/
def sha1Pad (msg : List Nat) : List Nat :=
  msg ++ 128 :: List.replicate ((119 - msg.length % 64) % 64) 0
    ++ be8 (8 * msg.length % 18446744073709551616)

/-- Group bytes into 32-bit big-endian words. -/
def words4 : List Nat → List Nat
  | b0 :: b1 :: b2 :: b3 :: t => (b0 * 16777216 + b1 * 65536 + b2 * 256 + b3) :: words4 t
  | _ => []

/-- Chunk into 64-byte blocks; fuel `l.length` suffices since each step drops 64. -/
def chunk64F : Nat → List Nat → List (List Nat)
  | _, [] => []
  | 0, _ :: _ => []
  | fuel + 1, c :: t => (c :: t).take 64 :: chunk64F fuel ((c :: t).drop 64)

/-- The five 32-bit words of the SHA-1 digest of a byte string. -/
def sha1Digest (msg : List Nat) : Nat × Nat × Nat × Nat × Nat :=
  (chunk64F (sha1Pad msg).length (sha1Pad msg)).foldl
    (fun h blk => sha1Block h (words4 blk))
    (0x67452301, 0xEFCDAB89, 0x98BADCFE, 0x10325476, 0xC3D2E1F0)

/-- Lower-case hexadecimal digit. -/
def hexDigit (n : Nat) : Char := if n < 10 then Char.ofNat (48 + n) else Char.ofNat (87 + n)

/-- A 32-bit word as 8 hex characters, big-endian. -/
def toHex8 (n : Nat) : List Char := (List.range 8).map (fun i => hexDigit (n / 16 ^ (7 - i) % 16))

/-- `hashlib.sha1(bytes).hexdigest()` as a character list (40 hex chars). -/
def sha1HexChars (msg : List Nat) : List Char :=
  match sha1Digest msg with
  | (a, b, c, d, e) => toHex8 a ++ toHex8 b ++ toHex8 c ++ toHex8 d ++ toHex8 e

/-- Is `c` a lower-case hexadecimal digit? -/
def isHexChar (c : Char) : Bool :=
  decide ((48 ≤ c.toNat ∧ c.toNat ≤ 57) ∨ (97 ≤ c.toNat ∧ c.toNat ≤ 102))

/-! ### Data model -/

inductive CardType
  | FILL
  | DIRECT
  | CLASSIFICATION
  | DEFINITION
deriving DecidableEq, Repr

/-- Dynamic value of a card's `tags` field: the code stores a list of strings
on direct, definition and classification cards, but `create_fill_cards`
stores the module-level string variable `tags` (the raw form input). -/
inductive TagsVal
  | ofList (l : List String)
  | ofStr (s : String)
deriving DecidableEq, Repr

structure Card where
  guid : String
  type : CardType
  question : String
  answer : String
  tags : TagsVal
deriving DecidableEq, Repr

/-! ### Engine logic (translated from `app.py`) -/

/-- `hashlib.sha1(name.encode("utf-8")).hexdigest()[:16]`. -/
def gen_id_from_text (name : String) : String :=
  ⟨(sha1HexChars (strBytes name)).take 16⟩

/-- `len([part for part in line.split(":") if len(part.strip()) > 0]) > 1`. -/
def is_definition_line (line : String) : Bool :=
  decide (1 < ((pySplitAll line ":").filter (fun p => pyStrip p != "")).length)

/-- `"||" in line`. -/
def is_direct_line (line : String) : Bool := strContains line "||"

/-- `is_single_paragraph_fill`: at least two lines, and every non-blank
trimmed item line occurs inside the trimmed first line. -/
def is_single_paragraph_fill (lines : List String) : Bool :=
  if lines.length < 2 then false
  else
    (lines.drop 1).all fun line =>
      if pyStrip line == "" then true
      else strContains (pyStrip (lines.headD "")) (pyStrip line)

/-- `create_direct_cards`: split each line at the first `"||"`, trim both
parts; the guard `len(parts) < 2` corresponds to the one-element case. -/
def create_direct_cards (lines : List String) (tags : List String) : List Card :=
  match lines with
  | [] => []
  | l :: t =>
    match (pySplit1 l "||").map pyStrip with
    | p0 :: p1 :: _ =>
      ⟨"", CardType.DIRECT, p0, p1, TagsVal.ofList tags⟩ :: create_direct_cards t tags
    | _ => create_direct_cards t tags

/-- `create_def_cards`: split each line at the first `":"`; emit the
`Define name / line` card and the reciprocal `definition / name` card. -/
def create_def_cards (lines : List String) (tags : List String) : List Card :=
  match lines with
  | [] => []
  | line :: t =>
    match (pySplit1 line ":").map pyStrip with
    | name :: definition :: _ =>
      ⟨"", CardType.DEFINITION, "Define " ++ name, line, TagsVal.ofList tags⟩ ::
      ⟨"", CardType.DEFINITION, definition, name, TagsVal.ofList tags⟩ ::
      create_def_cards t tags
    | _ => create_def_cards t tags

/-- `re.search(r"\[(.+?)\]", l)`, lazily: chars strictly between the first
`']'` (at distance at least one) and the opening bracket. -/
def takeUntilClose : List Char → Option (List Char)
  | [] => none
  | c :: t => if c == ']' then some [] else (takeUntilClose t).map (fun g => c :: g)

/-- The group matched right after an `'['`: at least one character, then up
to the first `']'`. -/
def afterOpen : List Char → Option (List Char)
  | [] => none
  | c :: t => (takeUntilClose t).map (fun g => c :: g)

/-- Group of the leftmost match of `\[(.+?)\]`, if any. -/
def findBracketGroup : List Char → Option (List Char)
  | [] => none
  | c :: t =>
    if c == '[' then
      match afterOpen t with
      | some g => some g
      | none => findBracketGroup t
    else findBracketGroup t

/-- `re.sub(r'[\[\]]', '', l)`: remove every square bracket. -/
def stripBrackets (s : String) : String :=
  ⟨s.data.filter (fun c => !(c == '[') && !(c == ']'))⟩

/-- Python dict assignment `blocks[k] = v` on an insertion-ordered
association list: overwrite in place, else append. -/
def upsert (m : List (String × List String)) (k : String) (v : List String) :
    List (String × List String) :=
  match m with
  | [] => [(k, v)]
  | (k1, v1) :: t => if k1 == k then (k1, v) :: t else (k1, v1) :: upsert t k v

/-- The loop of `split_blocks`; `curStruct = none` models `cur_struct = None`,
and the Python truthiness test `if cur_struct and cur_block` becomes
`s ≠ "" ∧ curBlock ≠ []`. -/
def splitBlocksAux :
    List (String × List String) → Option String → List String → List String →
      List (String × List String)
  | acc, curStruct, curBlock, [] =>
    (match curStruct with
     | some s => if s ≠ "" ∧ curBlock ≠ [] then upsert acc s curBlock else acc
     | none => acc)
  | acc, curStruct, curBlock, l :: t =>
    let ls := pyStrip l
    if ls = "" then splitBlocksAux acc curStruct curBlock t
    else
      match findBracketGroup ls.data with
      | some g =>
        let acc2 :=
          match curStruct with
          | some s => if s ≠ "" ∧ curBlock ≠ [] then upsert acc s curBlock else acc
          | none => acc
        splitBlocksAux acc2 (some (pyStrip ⟨g⟩)) [stripBrackets ls] t
      | none => splitBlocksAux acc curStruct (curBlock ++ [ls]) t

def split_blocks (lines : List String) : List (String × List String) :=
  splitBlocksAux [] none [] lines

/-- Base text of a fill card before blanks are inserted (`cloze_text`'s
initial value in `create_fill_cards`). -/
def fill_base (lines_block : List String) : String :=
  if is_single_paragraph_fill lines_block then lines_block.headD ""
  else strJoin "\n" lines_block

/-- The marker `f"{{{{c{i}::{term_clean}}}}}"`. -/
def clozeMark (i : Nat) (tc : String) : String :=
  "\x7b\x7bc" ++ toString i ++ "::" ++ tc ++ "\x7d\x7d"

/-- The `enumerate(lines_block[1:], 1)` replacement loop. -/
def clozeFold : Nat → String → List String → String
  | _, cl, [] => cl
  | i, cl, term :: t =>
    clozeFold (i + 1) (pyReplaceFirst cl (pyWsNorm term) (clozeMark i (pyWsNorm term))) t

/-- `create_fill_cards`: one card per block.  The Python function has no
`tags` parameter; `tags=tags` resolves to the module-level string variable,
passed here as `gtags`. -/
def create_fill_cards (lines_block : List String) (gtags : TagsVal) : List Card :=
  let q := clozeFold 1 (fill_base lines_block) (lines_block.drop 1)
  [⟨"", CardType.FILL, q, q, gtags⟩]

def create_class_cards (items : List String) (struct_name : String) (tags : List String) :
    List Card :=
  items.map fun item => ⟨"", CardType.CLASSIFICATION, item, struct_name, TagsVal.ofList tags⟩

def create_fill_and_classification_cards (lines : List String) (tags : List String)
    (generate_fill generate_class : Bool) (gtags : TagsVal) : List Card :=
  if lines.isEmpty || (!generate_fill && !generate_class) then []
  else
    (split_blocks lines).foldl
      (fun cards b =>
        if b.2.isEmpty then cards
        else
          cards ++ (if generate_fill then create_fill_cards b.2 gtags else [])
            ++ (if generate_class then create_class_cards (b.2.drop 1) b.1 tags else []))
      []

/-- `process_text`.  The one-pass `if/elif/else` classification of lines is
rendered as three order-preserving filters; `globalTags` is the value of the
module-level variable `tags` read by `create_fill_cards`. -/
def process_text (text : String) (gen_definitions gen_fill gen_class : Bool)
    (raw_tags : List String) (globalTags : TagsVal) : List Card :=
  let lines := pySplitAll text "\n"
  let tags := raw_tags.map normalizeTag
  let direct_lines := lines.filter fun l => is_direct_line l
  let def_lines := lines.filter fun l => !is_direct_line l && is_definition_line l
  let other_lines := lines.filter fun l => !is_direct_line l && !is_definition_line l
  create_direct_cards direct_lines tags
    ++ (if gen_definitions then create_def_cards def_lines tags else [])
    ++ create_fill_and_classification_cards other_lines tags gen_fill gen_class globalTags

/-- The submit handler: `process_text(text, df, fill, rev, tags.split(","))`,
where the module-level string `tags` is also what `create_fill_cards` reads. -/
def app_invoke (text : String) (gen_definitions gen_fill gen_class : Bool)
    (tagsInput : String) : List Card :=
  process_text text gen_definitions gen_fill gen_class (pySplitAll tagsInput ",")
    (TagsVal.ofStr tagsInput)

/-- Guid assignment in `create_apkg`:
`gen_id_from_text(f"{c.question}||{deck_name}")` for each card, in order. -/
def create_apkg_guids (deck_name : String) (cards : List Card) : List String :=
  cards.map fun c => gen_id_from_text (c.question ++ "||" ++ deck_name)

/-! ### Lemmas about the string primitives -/

theorem isPre_append_self (s r : List Char) : isPre s (s ++ r) = true := by
  induction s with
  | nil => rfl
  | cons a t ih => simp [isPre, ih]

theorem isPre_take (s : List Char) : ∀ l, isPre s l = true ↔ l.take s.length = s := by
  induction s with
  | nil => intro l; simp [isPre]
  | cons a t ih =>
    intro l
    cases l with
    | nil => simp [isPre]
    | cons b u =>
      simp only [isPre, Bool.and_eq_true, beq_iff_eq, List.length_cons, List.take_succ_cons,
        List.cons.injEq, ih]
      exact and_congr ⟨fun h => h.symm, fun h => h.symm⟩ Iff.rfl

theorem contains_append_self (sep t d : List Char) (hs : sep ≠ []) :
    listContains sep (t ++ sep ++ d) = true := by
  induction t with
  | nil =>
    obtain ⟨s0, s1, rfl⟩ : ∃ s0 s1, sep = s0 :: s1 := by
      cases sep with
      | nil => exact absurd rfl hs
      | cons a b => exact ⟨a, b, rfl⟩
    simp only [List.nil_append, List.cons_append, listContains]
    have h1 := isPre_append_self (s0 :: s1) d
    simp only [List.cons_append] at h1
    simp [h1]
  | cons c t' ih =>
    simp only [List.cons_append, listContains, Bool.or_eq_true]
    exact Or.inr ih

theorem splitOnce_none_of_not_contains (sep : List Char) :
    ∀ l, listContains sep l = false → splitOnceAux sep l = none := by
  intro l
  induction l with
  | nil => intro _; rfl
  | cons c t ih =>
    intro h
    simp only [listContains, Bool.or_eq_false_iff] at h
    simp [splitOnceAux, h.1, ih h.2]

theorem splitOnce_append (sep : List Char) (hs : sep ≠ []) :
    ∀ t d, listContains sep (t ++ sep.dropLast) = false →
      splitOnceAux sep (t ++ sep ++ d) = some (t, d) := by
  intro t
  induction t with
  | nil =>
    intro d _
    obtain ⟨s0, s1, rfl⟩ : ∃ s0 s1, sep = s0 :: s1 := by
      cases sep with
      | nil => exact absurd rfl hs
      | cons a b => exact ⟨a, b, rfl⟩
    have h1 := isPre_append_self (s0 :: s1) d
    have h2 := List.drop_left (s0 :: s1) d
    simp only [List.cons_append] at h1 h2
    simp [splitOnceAux, List.cons_append, h1, h2]
  | cons c t' ih =>
    intro d h
    rw [List.cons_append] at h
    simp only [listContains, Bool.or_eq_false_iff] at h
    obtain ⟨h1, h2⟩ := h
    have hslen : 1 ≤ sep.length := List.length_pos.mpr hs
    have hlen : sep.length ≤ (c :: (t' ++ sep.dropLast)).length := by
      simp only [List.length_cons, List.length_append, List.length_dropLast]
      omega
    have hpre : isPre sep (c :: (t' ++ sep ++ d)) = false := by
      cases hP : isPre sep (c :: (t' ++ sep ++ d)) with
      | false => rfl
      | true =>
        exfalso
        have htake := (isPre_take sep _).mp hP
        have hdec : sep.dropLast ++ [sep.getLast hs] = sep := List.dropLast_append_getLast hs
        have hx : (c :: (t' ++ sep ++ d)) =
            (c :: (t' ++ sep.dropLast)) ++ ([sep.getLast hs] ++ d) := by
          conv_lhs => rw [← hdec]
          simp [List.append_assoc]
        rw [hx, List.take_append_of_le_length hlen] at htake
        have : isPre sep (c :: (t' ++ sep.dropLast)) = true := (isPre_take sep _).mpr htake
        rw [this] at h1
        cases h1
    have hrec := ih d h2
    have hpre2 : isPre sep (c :: (t' ++ (sep ++ d))) = false := by
      rw [← List.append_assoc]
      exact hpre
    have hrec2 : splitOnceAux sep (t' ++ (sep ++ d)) = some (t', d) := by
      rw [← List.append_assoc]
      exact hrec
    simp [splitOnceAux, List.cons_append, hpre2, hrec2]

theorem splitAllFuel_single (sep l : List Char) (h : listContains sep l = false) :
    ∀ fuel, splitAllFuel sep fuel l = [l] := by
  intro fuel
  cases fuel with
  | zero => rfl
  | succ n => simp [splitAllFuel, splitOnce_none_of_not_contains sep l h]

theorem pySplitAll_single (s sep : String) (h : strContains s sep = false) :
    pySplitAll s sep = [s] := by
  have h2 : listContains sep.data s.data = false := h
  unfold pySplitAll
  rw [splitAllFuel_single sep.data s.data h2]
  rfl

theorem contains_singleton (c : Char) : ∀ l, listContains [c] l = true ↔ c ∈ l := by
  intro l
  induction l with
  | nil => simp [listContains]
  | cons x t ih => simp [listContains, isPre, ih, beq_iff_eq]

/-! ### Lemmas about blank (whitespace-only) input -/

theorem dropWhile_eq_nil_of_all {p : Char → Bool} :
    ∀ l : List Char, (∀ c ∈ l, p c = true) → l.dropWhile p = [] := by
  intro l
  induction l with
  | nil => intro _; rfl
  | cons c t ih =>
    intro h
    simp only [List.dropWhile_cons, h c (List.mem_cons_self c t), if_true]
    exact ih fun x hx => h x (List.mem_cons_of_mem c hx)

theorem pyStrip_blank (s : String) (h : s.data.all pyIsSpace = true) : pyStrip s = "" := by
  have h1 : ∀ c ∈ s.data, pyIsSpace c = true := List.all_eq_true.mp h
  unfold pyStrip
  rw [dropWhile_eq_nil_of_all s.data h1]
  rfl

theorem contains_cons_blank (c0 : Char) (n : List Char) (hc : pyIsSpace c0 = false) :
    ∀ l, (∀ c ∈ l, pyIsSpace c = true) → listContains (c0 :: n) l = false := by
  intro l
  induction l with
  | nil => intro _; rfl
  | cons x t ih =>
    intro h
    have hx : (c0 == x) = false := by
      by_cases hcx : c0 = x
      · subst hcx
        rw [h c0 (List.mem_cons_self _ _)] at hc
        cases hc
      · exact beq_eq_false_iff_ne.mpr hcx
    simp [listContains, isPre, hx, ih fun y hy => h y (List.mem_cons_of_mem x hy)]

theorem splitOnce_mem (sep : List Char) :
    ∀ l a b, splitOnceAux sep l = some (a, b) → (∀ c ∈ a, c ∈ l) ∧ (∀ c ∈ b, c ∈ l) := by
  intro l
  induction l with
  | nil => intro a b h; simp [splitOnceAux] at h
  | cons x t ih =>
    intro a b h
    simp only [splitOnceAux] at h
    split at h
    · simp only [Option.some.injEq, Prod.mk.injEq] at h
      obtain ⟨rfl, rfl⟩ := h
      exact ⟨by simp, fun c hc => List.mem_of_mem_drop hc⟩
    · cases hso : splitOnceAux sep t with
      | none => rw [hso] at h; cases h
      | some ab =>
        obtain ⟨a1, b1⟩ := ab
        simp only [hso, Option.some.injEq, Prod.mk.injEq] at h
        obtain ⟨rfl, rfl⟩ := h
        obtain ⟨ha, hb⟩ := ih a1 b1 hso
        constructor
        · intro c hc
          rcases List.mem_cons.mp hc with rfl | hc2
          · exact List.mem_cons_self _ _
          · exact List.mem_cons_of_mem _ (ha c hc2)
        · intro c hc
          exact List.mem_cons_of_mem _ (hb c hc)

theorem splitAllFuel_mem (sep : List Char) :
    ∀ fuel l p, p ∈ splitAllFuel sep fuel l → ∀ c ∈ p, c ∈ l := by
  intro fuel
  induction fuel with
  | zero =>
    intro l p hp
    simp only [splitAllFuel, List.mem_singleton] at hp
    subst hp
    exact fun c hc => hc
  | succ n ih =>
    intro l p hp
    simp only [splitAllFuel] at hp
    cases hso : splitOnceAux sep l with
    | none =>
      simp only [hso, List.mem_singleton] at hp
      subst hp
      exact fun c hc => hc
    | some ab =>
      obtain ⟨a, b⟩ := ab
      simp only [hso, List.mem_cons] at hp
      rcases hp with rfl | hp2
      · exact (splitOnce_mem sep l p b hso).1
      · exact fun c hc => (splitOnce_mem sep l a b hso).2 c (ih b p hp2 c hc)

theorem is_definition_line_blank (l : String) (h : l.data.all pyIsSpace = true) :
    is_definition_line l = false := by
  have hall := List.all_eq_true.mp h
  have hfilter : (pySplitAll l ":").filter (fun p => pyStrip p != "") = [] := by
    rw [List.filter_eq_nil_iff]
    intro p hp
    simp only [pySplitAll, List.mem_map] at hp
    obtain ⟨pl, hpl, rfl⟩ := hp
    have hplblank : ∀ c ∈ pl, pyIsSpace c = true := fun c hc =>
      hall c (splitAllFuel_mem _ _ _ _ hpl c hc)
    have hstrip : pyStrip ⟨pl⟩ = "" := pyStrip_blank ⟨pl⟩ (List.all_eq_true.mpr hplblank)
    simp [hstrip]
  unfold is_definition_line
  rw [hfilter]
  rfl

theorem is_direct_line_blank (l : String) (h : l.data.all pyIsSpace = true) :
    is_direct_line l = false := by
  have hall := List.all_eq_true.mp h
  show listContains ("||".data) l.data = false
  have hd : ("||" : String).data = ['|', '|'] := rfl
  rw [hd]
  exact contains_cons_blank '|' ['|'] (by decide) l.data hall

theorem splitBlocksAux_allBlank :
    ∀ t : List String, (∀ l ∈ t, pyStrip l = "") → ∀ acc,
      splitBlocksAux acc none [] t = acc := by
  intro t
  induction t with
  | nil => intro _ acc; rfl
  | cons l t' ih =>
    intro h acc
    have hl : pyStrip l = "" := h l (List.mem_cons_self _ _)
    simp only [splitBlocksAux, hl, if_pos]
    exact ih (fun x hx => h x (List.mem_cons_of_mem _ hx)) acc

theorem split_blocks_blank (t : List String) (h : ∀ l ∈ t, pyStrip l = "") :
    split_blocks t = [] := splitBlocksAux_allBlank t h []

theorem fillClass_blank (t : List String) (h : ∀ l ∈ t, pyStrip l = "")
    (tags : List String) (gf gc : Bool) (g : TagsVal) :
    create_fill_and_classification_cards t tags gf gc g = [] := by
  unfold create_fill_and_classification_cards
  split
  · rfl
  · rw [split_blocks_blank t h]; rfl

/-! ### Lemmas about the block segmenter's loop state -/

theorem splitBlocksAux_blockIrrel :
    ∀ (t : List String) (acc : List (String × List String)) (b : List String),
      splitBlocksAux acc none b t = splitBlocksAux acc none [] t := by
  intro t
  induction t with
  | nil => intro acc b; rfl
  | cons l t' ih =>
    intro acc b
    simp only [splitBlocksAux]
    by_cases hl : pyStrip l = ""
    · rw [if_pos hl, if_pos hl]
      exact ih acc b
    · rw [if_neg hl, if_neg hl]
      cases hfb : findBracketGroup (pyStrip l).data with
      | some g => simp only [hfb]
      | none =>
        simp only [hfb]
        rw [ih acc (b ++ [pyStrip l]), ih acc ([] ++ [pyStrip l])]

theorem splitBlocksAux_drop_pre :
    ∀ pre : List String, (∀ l ∈ pre, findBracketGroup (pyStrip l).data = none) →
      ∀ (rest : List String) (acc : List (String × List String)) (b : List String),
        splitBlocksAux acc none b (pre ++ rest) = splitBlocksAux acc none [] rest := by
  intro pre
  induction pre with
  | nil => intro _ rest acc b; exact splitBlocksAux_blockIrrel rest acc b
  | cons l pre' ih =>
    intro h rest acc b
    rw [List.cons_append]
    simp only [splitBlocksAux]
    by_cases hl : pyStrip l = ""
    · rw [if_pos hl]
      exact ih (fun x hx => h x (List.mem_cons_of_mem _ hx)) rest acc b
    · rw [if_neg hl]
      have hfb : findBracketGroup (pyStrip l).data = none := h l (List.mem_cons_self _ _)
      simp only [hfb]
      exact ih (fun x hx => h x (List.mem_cons_of_mem _ hx)) rest acc (b ++ [pyStrip l])

theorem split_blocks_drop_pre (pre rest : List String)
    (h : ∀ l ∈ pre, findBracketGroup (pyStrip l).data = none) :
    split_blocks (pre ++ rest) = split_blocks rest := by
  unfold split_blocks
  exact splitBlocksAux_drop_pre pre h rest [] []

/-! ### Lemmas about the identifier scheme -/

theorem sha1HexChars_length (msg : List Nat) : (sha1HexChars msg).length = 40 := by
  unfold sha1HexChars
  rcases hd : sha1Digest msg with ⟨a, b, c, d, e⟩
  simp [hd, toHex8]

set_option maxRecDepth 4000 in
theorem hexDigit_isHex : ∀ n, n < 16 → isHexChar (hexDigit n) = true := by decide

theorem toHex8_all_hex (n : Nat) : ∀ c ∈ toHex8 n, isHexChar c = true := by
  intro c hc
  simp only [toHex8, List.mem_map, List.mem_range] at hc
  obtain ⟨i, _, rfl⟩ := hc
  exact hexDigit_isHex _ (Nat.mod_lt _ (by norm_num))

theorem sha1HexChars_all_hex (msg : List Nat) : ∀ c ∈ sha1HexChars msg, isHexChar c = true := by
  have key : ∀ l1 l2 : List Char, (∀ x ∈ l1, isHexChar x = true) →
      (∀ x ∈ l2, isHexChar x = true) → ∀ x ∈ l1 ++ l2, isHexChar x = true := by
    intro l1 l2 h1 h2 x hx
    rcases List.mem_append.mp hx with h | h
    · exact h1 x h
    · exact h2 x h
  intro c hc
  rcases hd : sha1Digest msg with ⟨a, b, c2, d, e⟩
  have hc2 : c ∈ toHex8 a ++ toHex8 b ++ toHex8 c2 ++ toHex8 d ++ toHex8 e := by
    unfold sha1HexChars at hc
    rw [hd] at hc
    exact hc
  exact key _ _ (key _ _ (key _ _ (key _ _ (toHex8_all_hex a) (toHex8_all_hex b))
    (toHex8_all_hex c2)) (toHex8_all_hex d)) (toHex8_all_hex e) c hc2

theorem gen_id_length (name : String) : (gen_id_from_text name).length = 16 := by
  show ((sha1HexChars (strBytes name)).take 16).length = 16
  simp [List.length_take, sha1HexChars_length]

theorem gen_id_all_hex (name : String) : (gen_id_from_text name).data.all isHexChar = true := by
  rw [List.all_eq_true]
  intro c hc
  exact sha1HexChars_all_hex _ c (List.take_subset _ _ hc)

set_option maxRecDepth 100000 in
/-- Sanity vectors pinning down the embedded SHA-1 against the standard. -/
theorem sha1_test_vectors :
    (⟨sha1HexChars (strBytes "abc")⟩ : String) = "a9993e364706816aba3e25717850c26c9cd0d89d" ∧
    (⟨sha1HexChars (strBytes "")⟩ : String) = "da39a3ee5e6b4b0d3255bfef95601890afd80709" :=
  ⟨rfl, rfl⟩

/-! ### The claims -/

/-- C1 counterexample: on the well-formed direct line `"a || b"` the engine
produces exactly one card whose back is `"b"`, which is not the full
original line, refuting "back equal to the full original line". -/
theorem C1_counterexample :
    process_text "a || b" true true true [] (TagsVal.ofStr "") =
      [⟨"", CardType.DIRECT, "a", "b", TagsVal.ofList []⟩] ∧
    ("b" : String) ≠ "a || b" :=
  ⟨rfl, by decide⟩

/-- C1 (amended): for every well-formed direct line `term || definition`
(first separator occurrence at the boundary, no newline, both sides
nonempty after trimming) the engine produces exactly one Direct card whose
front is the trimmed term and whose back is the trimmed definition part —
not the full original line. -/
theorem C1_direct_card_amended (t d : String) (gd gf gc : Bool) (raw : List String)
    (g : TagsVal)
    (hline : strContains (t ++ "||" ++ d) "\n" = false)
    (hfirst : strContains (t ++ "|") "||" = false)
    (_ht : pyStrip t ≠ "") (_hd : pyStrip d ≠ "") :
    process_text (t ++ "||" ++ d) gd gf gc raw g =
      [⟨"", CardType.DIRECT, pyStrip t, pyStrip d, TagsVal.ofList (raw.map normalizeTag)⟩] := by
  have hdata : (t ++ "||" ++ d).data = t.data ++ ['|', '|'] ++ d.data := by
    simp only [String.data_append]
  have hcont : listContains ['|', '|'] (t.data ++ (['|', '|'] : List Char).dropLast) = false := by
    show listContains ['|', '|'] (t.data ++ ['|']) = false
    have h0 := hfirst
    unfold strContains at h0
    rw [String.data_append] at h0
    exact h0
  have hsplit : splitOnceAux ['|', '|'] (t.data ++ ['|', '|'] ++ d.data) = some (t.data, d.data) :=
    splitOnce_append ['|', '|'] (by decide) t.data d.data hcont
  have hlines : pySplitAll (t ++ "||" ++ d) "\n" = [t ++ "||" ++ d] :=
    pySplitAll_single _ _ hline
  have hdirect : is_direct_line (t ++ "||" ++ d) = true := by
    show listContains (("||" : String).data) (t ++ "||" ++ d).data = true
    rw [hdata]
    exact contains_append_self ['|', '|'] t.data d.data (by decide)
  have hdc : create_direct_cards [t ++ "||" ++ d] (raw.map normalizeTag) =
      [⟨"", CardType.DIRECT, pyStrip t, pyStrip d, TagsVal.ofList (raw.map normalizeTag)⟩] := by
    have hps : pySplit1 (t ++ "||" ++ d) "||" = [t, d] := by
      unfold pySplit1
      rw [show ("||" : String).data = ['|', '|'] from rfl, hdata, hsplit]
    unfold create_direct_cards
    rw [hps]
    rfl
  have hf1 : List.filter (fun l => is_direct_line l) [t ++ "||" ++ d] = [t ++ "||" ++ d] := by
    simp [List.filter, hdirect]
  have hf2 : List.filter (fun l => !is_direct_line l && is_definition_line l)
      [t ++ "||" ++ d] = [] := by
    simp [List.filter, hdirect]
  have hf3 : List.filter (fun l => !is_direct_line l && !is_definition_line l)
      [t ++ "||" ++ d] = [] := by
    simp [List.filter, hdirect]
  simp only [process_text, hlines]
  rw [hf1, hf2, hf3, hdc]
  cases gd <;> rfl

/-- Witness for C1's amended theorem at a concrete line. -/
theorem C1_direct_card_amended_witness :
    process_text ("Term" ++ "||" ++ " def part ") true true true ["a b"] (TagsVal.ofStr "") =
      [⟨"", CardType.DIRECT, "Term", "def part", TagsVal.ofList ["a_b"]⟩] :=
  C1_direct_card_amended "Term" " def part " true true true ["a b"] (TagsVal.ofStr "")
    (by decide) (by decide) (by decide) (by decide)

/-- C2 is violated by the code (`create_fill_cards` reads the module-level
string `tags` rather than the normalized list): on input
`"[G] contains x\nx"` with raw tag input `"my tag"`, the Fill card carries
the raw string while the Classification card carries the normalized list. -/
theorem C2_fill_tags_bug :
    (app_invoke "[G] contains x\nx" true true true "my tag").map Card.tags =
      [TagsVal.ofStr "my tag", TagsVal.ofList ["my_tag"]] ∧
    TagsVal.ofStr "my tag" ≠ TagsVal.ofList ["my_tag"] :=
  ⟨rfl, by decide⟩

/-- C3 is violated by the code: the line `"||"` fails to split into two
non-empty parts, yet `create_direct_cards` still produces a card — with
empty front and empty back — because `split("||", 1)` always returns two
parts, so the `len(parts) < 2` guard never fires. -/
theorem C3_empty_parts_bug :
    process_text "||" true true true [] (TagsVal.ofStr "") =
      [⟨"", CardType.DIRECT, "", "", TagsVal.ofList []⟩] ∧
    (⟨"", CardType.DIRECT, "", "", TagsVal.ofList []⟩ : Card).question = "" ∧
    (⟨"", CardType.DIRECT, "", "", TagsVal.ofList []⟩ : Card).answer = "" :=
  ⟨rfl, rfl, rfl⟩

/-- C4: every card's identifier is the first 16 hex characters of the SHA-1
digest of the card's front joined to the collection name by `"||"`; the
identifier is 16 lowercase hex digits, and a second invocation on the same
text and collection name yields the same identifiers in the same order. -/
theorem C4_guid_scheme (deck text : String) (gd gf gc : Bool) (raw : List String)
    (g : TagsVal) :
    create_apkg_guids deck (process_text text gd gf gc raw g) =
      (process_text text gd gf gc raw g).map
        (fun c => ⟨(sha1HexChars (strBytes (c.question ++ "||" ++ deck))).take 16⟩) ∧
    (∀ c ∈ process_text text gd gf gc raw g,
      (gen_id_from_text (c.question ++ "||" ++ deck)).length = 16 ∧
      (gen_id_from_text (c.question ++ "||" ++ deck)).data.all isHexChar = true) ∧
    ∀ cards2, cards2 = process_text text gd gf gc raw g →
      create_apkg_guids deck cards2 = create_apkg_guids deck (process_text text gd gf gc raw g) :=
  ⟨rfl, fun _ _ => ⟨gen_id_length _, gen_id_all_hex _⟩, fun _ h2 => by rw [h2]⟩

/-- Witness for C4 at a concrete invocation and card. -/
theorem C4_guid_scheme_witness :
    (gen_id_from_text ("a" ++ "||" ++ "Deck")).length = 16 ∧
    (gen_id_from_text ("a" ++ "||" ++ "Deck")).data.all isHexChar = true :=
  (C4_guid_scheme "Deck" "a||b" true true true [] (TagsVal.ofStr "")).2.1
    ⟨"", CardType.DIRECT, "a", "b", TagsVal.ofList []⟩ (by decide)

/-- C5: for every well-formed definition line `term: definition` (classified
as a definition line, not direct, first colon at the boundary, no newline,
both sides nonempty after trimming), with definition generation enabled the
engine produces exactly two cards: `"Define " ++ term` backed by the full
original line, and the reciprocal `definition` backed by `term`. -/
theorem C5_definition_cards (t d : String) (gf gc : Bool) (raw : List String) (g : TagsVal)
    (hline : strContains (t ++ ":" ++ d) "\n" = false)
    (hnodirect : is_direct_line (t ++ ":" ++ d) = false)
    (hdef : is_definition_line (t ++ ":" ++ d) = true)
    (hcolon : strContains t ":" = false)
    (_ht : pyStrip t ≠ "") (_hd : pyStrip d ≠ "") :
    process_text (t ++ ":" ++ d) true gf gc raw g =
      [⟨"", CardType.DEFINITION, "Define " ++ pyStrip t, t ++ ":" ++ d,
          TagsVal.ofList (raw.map normalizeTag)⟩,
       ⟨"", CardType.DEFINITION, pyStrip d, pyStrip t,
          TagsVal.ofList (raw.map normalizeTag)⟩] := by
  have hdata : (t ++ ":" ++ d).data = t.data ++ [':'] ++ d.data := by
    simp only [String.data_append]
  have hcont : listContains [':'] (t.data ++ (([':'] : List Char)).dropLast) = false := by
    show listContains [':'] (t.data ++ []) = false
    rw [List.append_nil]
    exact hcolon
  have hsplit : splitOnceAux [':'] (t.data ++ [':'] ++ d.data) = some (t.data, d.data) :=
    splitOnce_append [':'] (by decide) t.data d.data hcont
  have hlines : pySplitAll (t ++ ":" ++ d) "\n" = [t ++ ":" ++ d] :=
    pySplitAll_single _ _ hline
  have hdc : create_def_cards [t ++ ":" ++ d] (raw.map normalizeTag) =
      [⟨"", CardType.DEFINITION, "Define " ++ pyStrip t, t ++ ":" ++ d,
          TagsVal.ofList (raw.map normalizeTag)⟩,
       ⟨"", CardType.DEFINITION, pyStrip d, pyStrip t,
          TagsVal.ofList (raw.map normalizeTag)⟩] := by
    have hps : pySplit1 (t ++ ":" ++ d) ":" = [t, d] := by
      unfold pySplit1
      rw [show (":" : String).data = [':'] from rfl, hdata, hsplit]
    unfold create_def_cards
    rw [hps]
    rfl
  have hf1 : List.filter (fun l => is_direct_line l) [t ++ ":" ++ d] = [] := by
    simp [List.filter, hnodirect]
  have hf2 : List.filter (fun l => !is_direct_line l && is_definition_line l)
      [t ++ ":" ++ d] = [t ++ ":" ++ d] := by
    simp [List.filter, hnodirect, hdef]
  have hf3 : List.filter (fun l => !is_direct_line l && !is_definition_line l)
      [t ++ ":" ++ d] = [] := by
    simp [List.filter, hnodirect, hdef]
  simp only [process_text, hlines]
  rw [hf1, hf2, hf3, hdc]
  rfl

/-- Witness for C5 at a concrete line. -/
theorem C5_definition_cards_witness :
    process_text ("Apple" ++ ":" ++ " a fruit") true true true ["x y"] (TagsVal.ofStr "") =
      [⟨"", CardType.DEFINITION, "Define Apple", "Apple: a fruit", TagsVal.ofList ["x_y"]⟩,
       ⟨"", CardType.DEFINITION, "a fruit", "Apple", TagsVal.ofList ["x_y"]⟩] :=
  C5_definition_cards "Apple" " a fruit" true true ["x y"] (TagsVal.ofStr "")
    (by decide) (by decide) (by decide) (by decide) (by decide) (by decide)

/-- C6: on the block `[Group] contains Pikachu, Bulbasaur` followed by the
item lines `Pikachu` and `Bulbasaur`, with fill and classification enabled,
the engine produces exactly one Fill card whose text carries the blank
markers `c1` around `Pikachu` and `c2` around `Bulbasaur`, and exactly two
Classification cards `Pikachu → Group` and `Bulbasaur → Group`. -/
theorem C6_pokemon_block (gd : Bool) (raw : List String) (g : TagsVal) :
    process_text "[Group] contains Pikachu, Bulbasaur\nPikachu\nBulbasaur" gd true true raw g =
      [⟨"", CardType.FILL,
          "Group contains \x7b\x7bc1::Pikachu\x7d\x7d, \x7b\x7bc2::Bulbasaur\x7d\x7d",
          "Group contains \x7b\x7bc1::Pikachu\x7d\x7d, \x7b\x7bc2::Bulbasaur\x7d\x7d", g⟩,
       ⟨"", CardType.CLASSIFICATION, "Pikachu", "Group", TagsVal.ofList (raw.map normalizeTag)⟩,
       ⟨"", CardType.CLASSIFICATION, "Bulbasaur", "Group",
          TagsVal.ofList (raw.map normalizeTag)⟩] ∧
    strContains "Group contains \x7b\x7bc1::Pikachu\x7d\x7d, \x7b\x7bc2::Bulbasaur\x7d\x7d"
      "\x7b\x7bc1::Pikachu\x7d\x7d" = true ∧
    strContains "Group contains \x7b\x7bc1::Pikachu\x7d\x7d, \x7b\x7bc2::Bulbasaur\x7d\x7d"
      "\x7b\x7bc2::Bulbasaur\x7d\x7d" = true := by
  refine ⟨?_, by decide, by decide⟩
  cases gd <;> rfl

/-- C7: a block of at least two lines with some non-blank item that is not a
substring of the (trimmed) header is not single-paragraph and its fill base
text is the newline-join of all lines; when every non-blank trimmed item is
a substring of the header, the header alone is the base text. -/
theorem C7_single_paragraph_base (block : List String) (h2 : 2 ≤ block.length) :
    ((∃ item ∈ block.drop 1, pyStrip item ≠ "" ∧
        strContains (pyStrip (block.headD "")) (pyStrip item) = false) →
      is_single_paragraph_fill block = false ∧ fill_base block = strJoin "\n" block) ∧
    ((∀ item ∈ block.drop 1, pyStrip item ≠ "" →
        strContains (pyStrip (block.headD "")) (pyStrip item) = true) →
      is_single_paragraph_fill block = true ∧ fill_base block = block.headD "") := by
  have hlt : ¬ block.length < 2 := not_lt.mpr h2
  constructor
  · rintro ⟨item, hmem, hne, hnc⟩
    have hall : is_single_paragraph_fill block = false := by
      unfold is_single_paragraph_fill
      rw [if_neg hlt]
      cases hA : (block.drop 1).all (fun line =>
          if pyStrip line == "" then true
          else strContains (pyStrip (block.headD "")) (pyStrip line)) with
      | false => rfl
      | true =>
        exfalso
        have hx := List.all_eq_true.mp hA item hmem
        have hb : ¬ ((pyStrip item == "") = true) := by
          rw [beq_eq_false_iff_ne.mpr hne]
          exact Bool.false_ne_true
        rw [if_neg hb] at hx
        rw [hx] at hnc
        cases hnc
    exact ⟨hall, by simp [fill_base, hall]⟩
  · intro hgood
    have hall : is_single_paragraph_fill block = true := by
      unfold is_single_paragraph_fill
      rw [if_neg hlt, List.all_eq_true]
      intro line hline
      by_cases hb : pyStrip line = ""
      · simp [hb]
      · have hb2 : ¬ ((pyStrip line == "") = true) := by
          rw [beq_eq_false_iff_ne.mpr hb]
          exact Bool.false_ne_true
        rw [if_neg hb2]
        exact hgood line hline hb
    exact ⟨hall, by simp [fill_base, hall]⟩

/-- Witness for C7 at a concrete two-line block whose item is no substring
of the header. -/
theorem C7_single_paragraph_base_witness :
    is_single_paragraph_fill ["a b", "zzz"] = false ∧
    fill_base ["a b", "zzz"] = "a b\nzzz" :=
  (C7_single_paragraph_base ["a b", "zzz"] (by decide)).1
    ⟨"zzz", by decide, by decide, by decide⟩

/-- C8 counterexample: the engine's tag normalization of the raw input
`"exam, biology"` is not `["exam", "biology"]` (no trimming happens before
the space-to-underscore substitution). -/
theorem C8_counterexample :
    ¬ ((pySplitAll "exam, biology" ",").map normalizeTag = ["exam", "biology"]) := by
  decide

/-- C8 (amended): tag normalization does not trim; each comma-separated tag
keeps its leading space, which becomes an underscore, so `"exam, biology"`
normalizes to `["exam", "_biology"]`, and cards carry exactly that list. -/
theorem C8_tags_amended :
    (pySplitAll "exam, biology" ",").map normalizeTag = ["exam", "_biology"] ∧
    app_invoke "a||b" true true true "exam, biology" =
      [⟨"", CardType.DIRECT, "a", "b", TagsVal.ofList ["exam", "_biology"]⟩] :=
  ⟨rfl, rfl⟩

/-- C9: input that is empty or consists only of blank (whitespace-only)
lines produces no cards, for every combination of toggles (the embedded
engine is total, so no error path exists). -/
theorem C9_blank_input (text : String) (gd gf gc : Bool) (raw : List String) (g : TagsVal)
    (h : ∀ l ∈ pySplitAll text "\n", l.data.all pyIsSpace = true) :
    process_text text gd gf gc raw g = [] := by
  simp only [process_text]
  have h1 : (pySplitAll text "\n").filter (fun l => is_direct_line l) = [] := by
    rw [List.filter_eq_nil_iff]
    intro a ha
    simp [is_direct_line_blank a (h a ha)]
  have h2 : (pySplitAll text "\n").filter
      (fun l => !is_direct_line l && is_definition_line l) = [] := by
    rw [List.filter_eq_nil_iff]
    intro a ha
    simp [is_definition_line_blank a (h a ha)]
  have h3 : create_fill_and_classification_cards
      ((pySplitAll text "\n").filter (fun l => !is_direct_line l && !is_definition_line l))
      (raw.map normalizeTag) gf gc g = [] := by
    apply fillClass_blank
    intro l hl
    exact pyStrip_blank l (h l (List.mem_of_mem_filter hl))
  rw [h1, h2, h3]
  cases gd <;> rfl

/-- Witness for C9 on a concrete blank text. -/
theorem C9_blank_input_witness :
    process_text " \n\t \n" true true true ["t"] (TagsVal.ofStr "x") = [] :=
  C9_blank_input " \n\t \n" true true true ["t"] (TagsVal.ofStr "x") (by decide)

/-- C10: lines that carry no bracket label (after trimming) and precede the
first bracket-labelled line are discarded by the block segmenter: the cards
produced from `pre ++ rest` equal those produced from `rest` alone whenever
no line of `pre` matches `\[(.+?)\]`. -/
theorem C10_pre_bracket_discarded (pre rest : List String) (tags : List String)
    (gf gc : Bool) (g : TagsVal)
    (h : ∀ l ∈ pre, findBracketGroup (pyStrip l).data = none) :
    create_fill_and_classification_cards (pre ++ rest) tags gf gc g =
      create_fill_and_classification_cards rest tags gf gc g := by
  unfold create_fill_and_classification_cards
  rw [split_blocks_drop_pre pre rest h]
  by_cases hg : (!gf && !gc) = true
  · rw [hg]
    simp
  · have hg2 : (!gf && !gc) = false := by
      cases hB : (!gf && !gc) with
      | true => exact absurd hB hg
      | false => rfl
    rw [hg2]
    simp only [Bool.or_false]
    cases rest with
    | nil =>
      rw [List.append_nil]
      cases pre with
      | nil => rfl
      | cons p ps =>
        have hsb : split_blocks ([] : List String) = [] := rfl
        simp [hsb]
    | cons r rs =>
      have hA : (pre ++ r :: rs).isEmpty = false := by
        cases pre <;> rfl
      have hB : (r :: rs).isEmpty = false := rfl
      rw [hA, hB]

/-- Witness for C10 with a concrete stray line before a bracket block. -/
theorem C10_pre_bracket_discarded_witness :
    create_fill_and_classification_cards ["stray line", "[G] has x", "x"] ["t"] true true
        (TagsVal.ofStr "") =
      create_fill_and_classification_cards ["[G] has x", "x"] ["t"] true true
        (TagsVal.ofStr "") :=
  C10_pre_bracket_discarded ["stray line"] ["[G] has x", "x"] ["t"] true true
    (TagsVal.ofStr "") (by decide)

end Ankigen
